import Mathlib

/-!
# Verification of the `ao-tokens` decimal value type (`Quantity`)

Shallow embedding of `src/Quantity.ts`: a quantity is an arbitrary-precision
signed integer `qty` (the raw scaled magnitude) together with a denomination
`D` (how many low-order decimal digits are fractional).  JavaScript bigint
division and remainder truncate toward zero, so they are modelled with
`Int.tdiv` / `Int.tmod`.  String-producing and string-consuming operations
(`toString`, `fromString`) are modelled over `List Char`, mirroring the
JavaScript string primitives (`slice`, `padStart`, `split`, `replace`,
`BigInt(string)`) the source uses.
-/

namespace AoTokens

/-! ## Digit-string primitives (JS bigint/string behaviour) -/

/-- Fueled little-endian base-10 digit extraction (fuel bounds recursion depth). -/
def digitsRevAux : ℕ → ℕ → List ℕ
  | 0, _ => []
  | _ + 1, 0 => []
  | fuel + 1, n + 1 => (n + 1) % 10 :: digitsRevAux fuel ((n + 1) / 10)

/-- Little-endian base-10 digits of a natural number (empty for 0). -/
def digitsRev (n : ℕ) : List ℕ := digitsRevAux n n

/-- Value of a little-endian digit list. -/
def valLE : List ℕ → ℕ
  | [] => 0
  | d :: t => d + 10 * valLE t

/-- Value of a most-significant-first digit list. -/
def valMSF (l : List ℕ) : ℕ := l.foldl (fun a d => 10 * a + d) 0

/-- The character for a decimal digit. -/
def digitChar (d : ℕ) : Char := Char.ofNat (48 + d)

/-- Decimal rendering of a natural number, as JavaScript renders bigints. -/
def natToChars (n : ℕ) : List Char :=
  if n = 0 then ['0'] else (digitsRev n).reverse.map digitChar

/-- `BigInt.prototype.toString` in base 10 (sign character for negatives). -/
def bigintToChars (i : ℤ) : List Char :=
  if i < 0 then '-' :: natToChars i.natAbs else natToChars i.toNat

/-- `String.prototype.padStart(target, "0")`. -/
def padStartZeros (target : ℕ) (l : List Char) : List Char :=
  List.replicate (target - l.length) '0' ++ l

/-- `str.replace(/0*$/, "")`: strip every trailing zero character. -/
def stripTrailingZeros (l : List Char) : List Char :=
  (l.reverse.dropWhile (fun c => c = '0')).reverse

/-- Little-endian digits of `f` padded with zeros up to length `target` (the
`target`-digit representation of `f < 10^target`, least significant first). -/
def fracPad (target f : ℕ) : List ℕ :=
  digitsRev f ++ List.replicate (target - (digitsRev f).length) 0

/-- `String.prototype.split(sep)` for a single-character separator. -/
def splitOnChar (sep : Char) : List Char → List (List Char)
  | [] => [[]]
  | c :: t =>
    match splitOnChar sep t with
    | [] => [[]]
    | h :: r => if c = sep then [] :: h :: r else (c :: h) :: r

/-- Numeric value of a decimal digit character. -/
def digitVal? (c : Char) : Option ℕ :=
  if '0' ≤ c ∧ c ≤ '9' then some (c.toNat - 48) else none

/-- Parse a string of decimal digit characters; the empty string parses as 0,
exactly as `BigInt("")` evaluates to `0n`. -/
def parseDigits? (l : List Char) : Option ℕ :=
  l.foldl (fun acc c => acc.bind (fun a => (digitVal? c).map (fun d => 10 * a + d))) (some 0)

/-- `BigInt(string)` on the decimal string shapes this library produces
(optional sign, digits); a failure models the thrown `SyntaxError`. -/
def parseBigInt? (s : List Char) : Option ℤ :=
  match s with
  | [] => some 0
  | c :: rest =>
    if c = '-' then
      if rest = [] then none else (parseDigits? rest).map (fun n : ℕ => -(n : ℤ))
    else if c = '+' then
      if rest = [] then none else (parseDigits? rest).map (fun n : ℕ => (n : ℤ))
    else (parseDigits? (c :: rest)).map (fun n : ℕ => (n : ℤ))

/-! ## The Quantity data model -/

/-- Error kinds surfaced by the operations (JS exceptions). -/
inductive QError
  | DivisionByZero
  | RangeErr
  | ParseErr
deriving DecidableEq

/-- The decimal value type: raw scaled integer `qty` and denomination `D`,
mirroring the private fields `#qty` and `#D` of the source class. -/
structure Quantity where
  qty : ℤ
  D : ℕ
deriving DecidableEq

/-- `get integer()`: `this.#qty / 10n ** this.#D` (bigint `/` truncates toward zero). -/
def Quantity.integer (x : Quantity) : ℤ := Int.tdiv x.qty (10 ^ x.D)

/-- `get fractional()`: `this.#qty - this.integer * 10n ** this.#D`. -/
def Quantity.fractional (x : Quantity) : ℤ := x.qty - x.integer * 10 ^ x.D

/-- Represented value (spec §3 invariant): `value = raw / 10^denomination`. -/
def valQ (x : Quantity) : ℚ := (x.qty : ℚ) / 10 ^ x.D

/-- `Quantity.__convert`: rescale to a new denomination; upscaling multiplies,
downscaling divides (truncating toward zero, discarding low-order digits). -/
def __convert (x : Quantity) (newD : ℕ) : Quantity :=
  if newD ≥ x.D then ⟨x.qty * 10 ^ (newD - x.D), newD⟩
  else ⟨Int.tdiv x.qty (10 ^ (x.D - newD)), newD⟩

/-- `Quantity.sameDenomination` on two quantities: both are brought to the larger
denomination; a quantity already at it is passed through untouched. -/
def sameDenom (x y : Quantity) : Quantity × Quantity :=
  let dm := if x.D > y.D then x.D else y.D
  (if x.D = dm then x else __convert x dm,
   if y.D = dm then y else __convert y dm)

/-- `Quantity.eq`: align denominations, then exact integer comparison. -/
def eqQ (x y : Quantity) : Bool :=
  let p := sameDenom x y
  p.1.qty == p.2.qty

/-- `Quantity.lt`. -/
def ltQ (x y : Quantity) : Bool :=
  let p := sameDenom x y
  decide (p.1.qty < p.2.qty)

/-- `Quantity.le`. -/
def leQ (x y : Quantity) : Bool :=
  let p := sameDenom x y
  decide (p.1.qty ≤ p.2.qty)

/-- `Quantity.__one`: the multiplicative identity at a denomination. -/
def __one (d : ℕ) : Quantity := ⟨10 ^ d, d⟩

/-- `Quantity.__add`: aligned integer sum, result keeps the aligned denomination. -/
def __add (x y : Quantity) : Quantity :=
  let p := sameDenom x y
  ⟨p.1.qty + p.2.qty, p.1.D⟩

/-- `Quantity.prototype._add`: in-place addition; only `#qty` is assigned, the
receiver keeps its original denomination, so the aligned result is converted
back down to it. -/
def _add (x y : Quantity) : Quantity :=
  ⟨(__convert (__add x y) x.D).qty, x.D⟩

/-- `Quantity.__mul`: aligned product rescaled by `10^D` (truncating). -/
def __mul (x y : Quantity) : Quantity :=
  let p := sameDenom x y
  ⟨Int.tdiv (p.1.qty * p.2.qty) (10 ^ p.1.D), p.1.D⟩

/-- `Quantity.prototype._mul` (in place). -/
def _mul (x y : Quantity) : Quantity :=
  ⟨(__convert (__mul x y) x.D).qty, x.D⟩

/-- `Quantity.__div`: dividend pre-scaled by `10^D`, then truncating integer
division.  JS bigint division by `0n` throws a RangeError; the spec names this
failure `DivisionByZero`. -/
def __div (x y : Quantity) : Except QError Quantity :=
  let p := sameDenom x y
  if p.2.qty = 0 then .error .DivisionByZero
  else .ok ⟨Int.tdiv (p.1.qty * 10 ^ p.1.D) p.2.qty, p.1.D⟩

/-- `Quantity.__trunc`: remove the fractional remainder (`%` follows the
dividend's sign, so this truncates toward zero). -/
def __trunc (x : Quantity) : Quantity :=
  ⟨x.qty - Int.tmod x.qty (10 ^ x.D), x.D⟩

/-- `Quantity.__floor` as written in the source: `trunc`, then one whole unit
down whenever the raw value is negative (no fractional-part test). -/
def __floor (x : Quantity) : Quantity :=
  let res := __trunc x
  if x.qty < 0 then ⟨res.qty - 10 ^ x.D, res.D⟩ else res

/-- `Quantity.__ceil` as written in the source: `trunc`, then one whole unit up
whenever the raw value is positive (no fractional-part test). -/
def __ceil (x : Quantity) : Quantity :=
  let res := __trunc x
  if x.qty > 0 then ⟨res.qty + 10 ^ x.D, res.D⟩ else res

/-- `Quantity.min`: reduce with pairwise alignment, returning original instances. -/
def minQ : List Quantity → Option Quantity
  | [] => none
  | h :: t =>
    some (t.foldl (fun prev curr =>
      let p := sameDenom prev curr
      if ltQ p.1 p.2 then prev else curr) h)

/-- `Quantity.max`. -/
def maxQ : List Quantity → Option Quantity
  | [] => none
  | h :: t =>
    some (t.foldl (fun prev curr =>
      let p := sameDenom prev curr
      if ltQ p.1 p.2 then curr else prev) h)

/-! ## Formatting and parsing -/

/-- `toString()` = `toLocaleString(undefined, ...)` with grouping disabled:
zero renders as "0"; otherwise the truncated integer part is rendered, and at
most `min D 20` fractional digits are appended (zero-padded on the left to the
denomination, trailing zeros stripped, omitted entirely when zero).  For a
negative value whose integer part is zero the fraction slice starts inside the
sign character and the inner `BigInt(fractions)` throws. -/
def qtyToString (qty : ℤ) (D : ℕ) : Except QError (List Char) :=
  if qty = 0 then .ok ['0']
  else
    let maxFD := min D 20
    let ip := Int.tdiv qty (10 ^ D)
    let formatted := bigintToChars ip
    if maxFD = 0 then .ok formatted
    else
      let fps := if ip = 0 then 0 else (bigintToChars ip).length
      let fractions := (padStartZeros D ((bigintToChars qty).drop fps)).take maxFD
      if fractions = [] then .ok formatted
      else
        match parseBigInt? fractions with
        | none => .error .ParseErr
        | some fv =>
          if fv > 0 then .ok (formatted ++ '.' :: stripTrailingZeros fractions)
          else .ok formatted

/-- `Quantity.prototype.fromString` at denomination `D`, returning the raw
scaled integer: strip grouping commas, split on ".", scale the integer part,
then truncate the fractional part to at most `D` digits (excess digits are
discarded) and right-pad a shorter one with zeros. -/
def fromString (s : List Char) (D : ℕ) : Except QError ℤ :=
  if s = [] then .ok 0
  else
    let v := s.filter (fun c => c != ',')
    if v = [] then .ok 0
    else
      match splitOnChar '.' v with
      | [] => .error .ParseErr
      | p0 :: rest =>
        match parseBigInt? p0 with
        | none => .error .ParseErr
        | some i =>
          let result := i * 10 ^ D
          match rest with
          | [] => .ok result
          | pf :: _ =>
            if pf = [] then .ok result
            else
              let relevant := pf.take D
              match parseBigInt? relevant with
              | none => .error .ParseErr
              | some f =>
                let f' := if relevant.length < D then f * 10 ^ (D - relevant.length) else f
                .ok (result + f')

/-- `Number(string)` on an unsigned decimal string, modelled exactly over ℚ
(the JS result is the nearest binary double; on the integer magnitudes the
power loop exercises, below `2^53`, the two agree).  `none` models NaN. -/
def parseUnsignedQ (s : List Char) : Option ℚ :=
  match splitOnChar '.' s with
  | [a] => (parseDigits? a).map (fun n : ℕ => (n : ℚ))
  | [a, b] =>
    match parseDigits? a, parseDigits? b with
    | some ia, some fb => some ((ia : ℚ) + (fb : ℚ) / 10 ^ b.length)
    | _, _ => none
  | _ => none

/-- `Number(string)` with an optional leading sign. -/
def parseDecimalQ : List Char → Option ℚ
  | [] => parseUnsignedQ []
  | c :: rest =>
    if c = '-' then (parseUnsignedQ rest).map (fun q => -q)
    else parseUnsignedQ (c :: rest)

/-- `ToNumber` coercion of a quantity, as triggered by `Math.abs(y)` and
`y < 0` in `__pow`: `Number(y.toString())`; `toString` itself may throw, and
`none` models NaN. -/
def toNumberQ (q : Quantity) : Except QError (Option ℚ) :=
  (qtyToString q.qty q.D).map parseDecimalQ

/-! ## Power -/

/-- Exponent argument of `__pow`: a JS bigint or a Quantity. -/
inductive PowExp
  | int (z : ℤ)
  | qty (q : Quantity)
deriving DecidableEq

/-- Number of iterations of `for (let i = 0; i < Math.abs(v) - 1; i++)`: the
count of naturals strictly below `|v| - 1`, i.e. `max 0 (ceil (|v| - 1))`,
computed from the exact value's numerator and denominator
(`ceil ((|num| - den) / den) = -fdiv (den - |num|) den`). -/
def powLoopCount (v : ℚ) : ℕ :=
  (-(Int.fdiv ((v.den : ℤ) - (v.num.natAbs : ℤ)) (v.den : ℤ))).toNat

/-- Iterated-multiplication core of the Quantity-exponent path of `__pow`:
`res = x.clone()` then `res._mul(x)` once per loop step on the aligned
operands; `v` is the coerced numeric value of the aligned exponent and the
loop runs for `i = 0, 1, ...` while `i < Math.abs(v) - 1`. -/
def powIterRes (x y : Quantity) (v : ℚ) : Quantity :=
  (fun r => _mul r (sameDenom x y).1)^[powLoopCount v] (sameDenom x y).1

/-- `Quantity.__pow`.  Bigint exponent `z`: zero yields one; otherwise the code
evaluates `x.#qty ** |z|` and then `x.#D ** z` — the latter throws a RangeError
whenever `z < 0` (bigint exponentiation rejects negative exponents), before any
reciprocal division can happen; for `z > 0` the intermediate at denomination
`D ^ z` is converted back to `x.#D`.  Quantity exponent: zero yields one,
otherwise the operands are aligned, the exponent coerces through
`Math.abs(ToNumber(y))`, multiplication is iterated, and a coerced-negative
exponent takes the reciprocal through `__div`; a NaN coercion runs zero loop
iterations and fails the `y < 0` test, returning the aligned clone. -/
def __pow (x : Quantity) : PowExp → Except QError Quantity
  | .int z =>
    if z = 0 then .ok (__one x.D)
    else if z < 0 then .error .RangeErr
    else .ok (__convert ⟨x.qty ^ z.toNat, x.D ^ z.toNat⟩ x.D)
  | .qty y =>
    if eqQ y ⟨0, y.D⟩ then .ok (__one x.D)
    else
      match toNumberQ (sameDenom x y).2 with
      | .error e => .error e
      | .ok none => .ok (sameDenom x y).1
      | .ok (some v) =>
        let res := powIterRes x y v
        if v < 0 then __div (__one res.D) res else .ok res

/-! ## Helper lemmas -/

theorem sameDenom_fst (x y : Quantity) :
    (sameDenom x y).1 = ⟨x.qty * 10 ^ (max x.D y.D - x.D), max x.D y.D⟩ := by
  obtain ⟨xq, xD⟩ := x
  obtain ⟨yq, yD⟩ := y
  simp only [sameDenom, __convert]
  by_cases hgt : xD > yD
  · rw [if_pos hgt, max_eq_left hgt.le]
    simp
  · rw [if_neg hgt, max_eq_right (by omega : xD ≤ yD)]
    by_cases hx : xD = yD
    · subst hx
      simp
    · rw [if_neg hx, if_pos (by omega : yD ≥ xD)]

theorem sameDenom_snd (x y : Quantity) :
    (sameDenom x y).2 = ⟨y.qty * 10 ^ (max x.D y.D - y.D), max x.D y.D⟩ := by
  obtain ⟨xq, xD⟩ := x
  obtain ⟨yq, yD⟩ := y
  simp only [sameDenom, __convert]
  by_cases hgt : xD > yD
  · rw [if_pos hgt, max_eq_left hgt.le]
    by_cases hy : yD = xD
    · subst hy
      simp
    · rw [if_neg hy, if_pos (by omega : xD ≥ yD)]
  · rw [if_neg hgt, max_eq_right (by omega : xD ≤ yD)]
    simp

theorem pow10_ne_zero (k : ℕ) : ((10 : ℚ) ^ k) ≠ 0 := by positivity

theorem pow10_int_ne_zero (k : ℕ) : ((10 : ℤ) ^ k) ≠ 0 := by positivity

/-- A fold that always returns one of its two arguments stays inside the list. -/
theorem foldl_choice_mem (f : Quantity → Quantity → Quantity)
    (hf : ∀ a b, f a b = a ∨ f a b = b) :
    ∀ (t : List Quantity) (h : Quantity), t.foldl f h ∈ h :: t := by
  intro t
  induction t with
  | nil => intro h; simp
  | cons c t ih =>
    intro h
    simp only [List.foldl_cons]
    have hmem := ih (f h c)
    rcases List.mem_cons.mp hmem with h1 | h1
    · rcases hf h c with hc | hc
      · simp [h1.trans hc]
      · simp [h1.trans hc]
    · simp [h1]

theorem eqQ_iff_aligned (x y : Quantity) :
    eqQ x y = true ↔
      x.qty * 10 ^ (max x.D y.D - x.D) = y.qty * 10 ^ (max x.D y.D - y.D) := by
  simp only [eqQ, sameDenom_fst, sameDenom_snd]
  exact beq_iff_eq

theorem eqQ_zero_right (y : Quantity) : eqQ y ⟨0, y.D⟩ = true ↔ y.qty = 0 := by
  rw [eqQ_iff_aligned]
  simp

/-! ## Claim theorems -/

/-- C1 (code bug): the spec says `floor` is `trunc` then one whole unit down
only when the value is negative *with a nonzero fractional part*, and `ceil`
is `trunc` then one unit up only when positive with a nonzero fractional part,
so on a value whose fractional part is zero both must equal `trunc` (the value
itself).  The code tests only the sign of the raw value: at raw -100,
denomination 2 (value -1.00, fractional part zero) `__floor` returns raw -200
(value -2.00) instead of -100, and at raw 100 `__ceil` returns raw 200 instead
of 100 — contradicting the source's own "Rounds down" / "Rounds up" doc
comments, which require idempotence on whole values. -/
theorem C1_floor_ceil_integral_eval :
    Quantity.fractional ⟨-100, 2⟩ = 0 ∧ __trunc ⟨-100, 2⟩ = ⟨-100, 2⟩ ∧
      __floor ⟨-100, 2⟩ = ⟨-200, 2⟩ ∧
    Quantity.fractional ⟨100, 2⟩ = 0 ∧ __trunc ⟨100, 2⟩ = ⟨100, 2⟩ ∧
      __ceil ⟨100, 2⟩ = ⟨200, 2⟩ :=
  ⟨rfl, rfl, rfl, rfl, rfl, rfl⟩

/-- C2: `__div` fails with `DivisionByZero` exactly when the divisor's raw
value is zero (alignment only rescales by a positive power of ten, so the
aligned raw stays zero iff the original is zero) and returns normally for any
nonzero divisor; and in the Quantity-exponent path of `__pow` with a
coerced-negative exponent, a zero raw value in the iterated positive-power
result makes the reciprocal `__div` fail with the same `DivisionByZero`. -/
theorem C2_division_by_zero (x y x2 y2 : Quantity) (v : ℚ)
    (hy2 : y2.qty ≠ 0)
    (hv : toNumberQ (sameDenom x2 y2).2 = .ok (some v))
    (hneg : v < 0)
    (hz : (powIterRes x2 y2 v).qty = 0) :
    (__div x y = .error .DivisionByZero ↔ y.qty = 0) ∧
    (y.qty ≠ 0 → ∃ r, __div x y = .ok r) ∧
    __pow x2 (.qty y2) = .error .DivisionByZero := by
  have hdiv : ∀ a b : Quantity, b.qty ≠ 0 →
      __div a b = .ok ⟨Int.tdiv ((sameDenom a b).1.qty * 10 ^ (sameDenom a b).1.D)
        (sameDenom a b).2.qty, (sameDenom a b).1.D⟩ := by
    intro a b hb
    simp only [__div, sameDenom_snd]
    rw [if_neg (mul_ne_zero hb (pow10_int_ne_zero _))]
  refine ⟨?_, ?_, ?_⟩
  · constructor
    · intro h
      by_contra hy
      rw [hdiv x y hy] at h
      cases h
    · intro hy
      simp only [__div, sameDenom_snd]
      rw [if_pos (by simp [hy])]
  · intro hy
    exact ⟨_, hdiv x y hy⟩
  · simp only [__pow]
    rw [if_neg (by simpa using (not_iff_not.mpr (eqQ_zero_right y2)).mpr hy2), hv]
    simp only [if_pos hneg]
    have hone : (__one (powIterRes x2 y2 v).D).D = (powIterRes x2 y2 v).D := rfl
    simp only [__div, sameDenom_snd, if_pos hneg]
    rw [if_pos]
    simp [hz]

/-- C3 counterexample: with base raw 33 at denomination 1 (3.3) and exponent 3,
the direct bigint path returns raw 35937 (its intermediate carries denomination
`1 ^ 3 = 1`, so the single conversion back is the identity and no rescaling by
`10^(D*(y-1))` ever happens), while the iterative Quantity path returns raw 356
(3.3 · 3.3 → 10.8, · 3.3 → 35.6): the two paths differ, refuting the claim
that they always produce identical results. -/
theorem C3_pow_paths_counterexample :
    __pow ⟨33, 1⟩ (.int 3) = .ok ⟨35937, 1⟩ ∧
    __pow ⟨33, 1⟩ (.qty ⟨3, 0⟩) = .ok ⟨356, 1⟩ ∧
    Quantity.mk 35937 1 ≠ ⟨356, 1⟩ :=
  ⟨rfl, rfl, by decide⟩

/-- C6: equality is exact-integer equality after denomination alignment —
equivalently, exact equality of the represented rational values (alignment to
the maximum denomination is lossless), with no epsilon tolerance; concretely,
raw 200 at denomination 12 equals raw 2 at denomination 10, while raw 200 at
denomination 12 differs from raw 200 at denomination 10. -/
theorem C6_eq_exact_after_alignment (x y : Quantity) :
    (eqQ x y = true ↔ valQ x = valQ y) ∧
    eqQ ⟨200, 12⟩ ⟨2, 10⟩ = true ∧
    eqQ ⟨200, 12⟩ ⟨200, 10⟩ = false := by
  refine ⟨?_, rfl, rfl⟩
  rw [eqQ_iff_aligned]
  have hval : valQ x = valQ y ↔ (x.qty : ℚ) * 10 ^ y.D = (y.qty : ℚ) * 10 ^ x.D := by
    unfold valQ
    rw [div_eq_div_iff (pow10_ne_zero _) (pow10_ne_zero _)]
  rw [hval]
  rcases le_total x.D y.D with hle | hle
  · rw [max_eq_right hle, Nat.sub_self, pow_zero, mul_one]
    constructor
    · intro h
      have h2 : ((x.qty * 10 ^ (y.D - x.D) : ℤ) : ℚ) * 10 ^ x.D = (y.qty : ℚ) * 10 ^ x.D := by
        rw [h]
      push_cast at h2
      rw [mul_assoc, ← pow_add, Nat.sub_add_cancel hle] at h2
      exact h2
    · intro h
      have h2 : ((x.qty : ℚ) * 10 ^ (y.D - x.D)) * 10 ^ x.D = (y.qty : ℚ) * 10 ^ x.D := by
        rw [mul_assoc, ← pow_add, Nat.sub_add_cancel hle]
        exact h
      have h3 := mul_right_cancel₀ (pow10_ne_zero x.D) h2
      exact_mod_cast h3
  · rw [max_eq_left hle, Nat.sub_self, pow_zero, mul_one]
    constructor
    · intro h
      have h2 : (x.qty : ℚ) * 10 ^ y.D = ((y.qty * 10 ^ (x.D - y.D) : ℤ) : ℚ) * 10 ^ y.D := by
        rw [← h]
      push_cast at h2
      rw [mul_assoc, ← pow_add, Nat.sub_add_cancel hle] at h2
      exact h2
    · intro h
      have h2 : (x.qty : ℚ) * 10 ^ y.D = ((y.qty : ℚ) * 10 ^ (x.D - y.D)) * 10 ^ y.D := by
        rw [mul_assoc, ← pow_add, Nat.sub_add_cancel hle]
        exact h
      have h3 := mul_right_cancel₀ (pow10_ne_zero y.D) h2
      exact_mod_cast h3

/-- C7: dividing raw 45682000000000 at denomination 11 (456.82) by raw
2200000000000 at denomination 12 (2.2) aligns to denomination 12, pre-scales
the dividend by `10^12` and truncates the quotient toward zero, producing raw
207645454545454 at denomination 12, which renders exactly as
"207.645454545454" — the repeating decimal truncated, not rounded. -/
theorem C7_division_exactness :
    __div ⟨45682000000000, 11⟩ ⟨2200000000000, 12⟩ = .ok ⟨207645454545454, 12⟩ ∧
    qtyToString 207645454545454 12 = .ok ("207.645454545454".toList) :=
  ⟨rfl, rfl⟩

/-- C8: when the operand's denomination is wider (`x.D < y.D`), the pure
`__add` carries the wider denomination and is lossless on the represented
values, while the in-place `_add` keeps the receiver's original denomination
and truncates the aligned sum back down by `10^(y.D - x.D)`. -/
theorem C8_inplace_narrowing (x y : Quantity) (h : x.D < y.D) :
    (__add x y).D = y.D ∧
    valQ (__add x y) = valQ x + valQ y ∧
    (_add x y).D = x.D ∧
    (_add x y).qty = Int.tdiv (__add x y).qty (10 ^ (y.D - x.D)) := by
  obtain ⟨k, hk⟩ : ∃ k, y.D = x.D + (k + 1) := ⟨y.D - x.D - 1, by omega⟩
  have hadd : __add x y = ⟨x.qty * 10 ^ (y.D - x.D) + y.qty, y.D⟩ := by
    simp only [__add, sameDenom_fst, sameDenom_snd,
      max_eq_right h.le, Nat.sub_self, pow_zero, mul_one]
  refine ⟨by rw [hadd], ?_, rfl, ?_⟩
  · rw [hadd]
    unfold valQ
    rw [hk]
    push_cast
    have hne1 := pow10_ne_zero x.D
    have hne2 := pow10_ne_zero (k + 1)
    field_simp
    ring
  · simp only [_add, __convert]
    rw [hadd]
    rw [if_neg (by simp only []; omega : ¬ x.D ≥ (Quantity.mk (x.qty * 10 ^ (y.D - x.D) + y.qty) y.D).D)]

/-- C9: `min` and `max` over a non-empty list return one of the supplied
instances themselves — structurally equal, raw value and original denomination
included — never a denomination-aligned copy (the alignment happens only
inside each pairwise comparison). -/
theorem C9_min_max_membership (l : List Quantity) (m M : Quantity)
    (hmin : minQ l = some m) (hmax : maxQ l = some M) : m ∈ l ∧ M ∈ l := by
  cases l with
  | nil => cases hmin
  | cons h t =>
    simp only [minQ] at hmin
    simp only [maxQ] at hmax
    constructor
    · obtain rfl := Option.some.inj hmin
      exact foldl_choice_mem _
        (fun a b => by
          by_cases hc : ltQ (sameDenom a b).1 (sameDenom a b).2 <;> simp [hc]) t h
    · obtain rfl := Option.some.inj hmax
      exact foldl_choice_mem _
        (fun a b => by
          by_cases hc : ltQ (sameDenom a b).1 (sameDenom a b).2 <;> simp [hc]) t h

/-- C10: `__trunc` keeps the denomination, its raw value is
`10^D * (qty tdiv 10^D)` (the removed remainder follows the dividend's sign,
i.e. truncation toward zero), hence divisible by `10^D` (zero fractional
part), and `__trunc` is idempotent. -/
theorem C10_trunc_properties (x : Quantity) :
    (__trunc x).D = x.D ∧
    (__trunc x).qty = 10 ^ x.D * Int.tdiv x.qty (10 ^ x.D) ∧
    ((10 : ℤ) ^ x.D ∣ (__trunc x).qty) ∧
    __trunc (__trunc x) = __trunc x := by
  have hq : (__trunc x).qty = 10 ^ x.D * Int.tdiv x.qty (10 ^ x.D) := by
    simp only [__trunc]
    have h := Int.tmod_add_tdiv x.qty (10 ^ x.D)
    linarith
  refine ⟨rfl, hq, ⟨_, hq⟩, ?_⟩
  have h0 : Int.tmod (__trunc x).qty (10 ^ x.D) = 0 := by
    rw [hq]
    exact Int.mul_tmod_right _ _
  have hstep : __trunc (__trunc x) =
      ⟨(__trunc x).qty - Int.tmod (__trunc x).qty (10 ^ x.D), x.D⟩ := rfl
  rw [hstep, h0, sub_zero]
  rfl

/-! ## Digit-string lemmas -/

theorem digitsRevAux_irrel : ∀ fuel fuel' n : ℕ, n ≤ fuel → n ≤ fuel' →
    digitsRevAux fuel n = digitsRevAux fuel' n := by
  intro fuel
  induction fuel with
  | zero =>
    intro fuel' n hn _
    interval_cases n
    cases fuel' <;> rfl
  | succ fuel ih =>
    intro fuel' n hn hn'
    match n, fuel' with
    | 0, 0 => rfl
    | 0, g + 1 => rfl
    | m + 1, g + 1 =>
      simp only [digitsRevAux]
      rw [ih g ((m + 1) / 10) (by omega : (m + 1) / 10 ≤ fuel) (by omega : (m + 1) / 10 ≤ g)]

theorem digitsRev_succ (n : ℕ) (h : 0 < n) :
    digitsRev n = n % 10 :: digitsRev (n / 10) := by
  obtain ⟨m, rfl⟩ : ∃ m, n = m + 1 := ⟨n - 1, by omega⟩
  show digitsRevAux (m + 1) (m + 1) = _
  simp only [digitsRevAux]
  rw [digitsRevAux_irrel m ((m + 1) / 10) ((m + 1) / 10) (by omega) le_rfl]
  rfl

theorem valLE_digitsRev (n : ℕ) : valLE (digitsRev n) = n := by
  induction n using Nat.strong_induction_on with
  | _ n ih =>
    rcases Nat.eq_zero_or_pos n with h | h
    · subst h; rfl
    · rw [digitsRev_succ n h]
      simp only [valLE]
      rw [ih (n / 10) (by omega)]
      omega

theorem digitsRev_mem_lt (n : ℕ) : ∀ d ∈ digitsRev n, d < 10 := by
  induction n using Nat.strong_induction_on with
  | _ n ih =>
    rcases Nat.eq_zero_or_pos n with h | h
    · subst h; intro d hd; cases hd
    · rw [digitsRev_succ n h]
      intro d hd
      rcases List.mem_cons.mp hd with h1 | h1
      · subst h1; omega
      · exact ih (n / 10) (by omega) d h1

theorem digitsRev_len_le : ∀ (D n : ℕ), n < 10 ^ D → (digitsRev n).length ≤ D := by
  intro D
  induction D with
  | zero =>
    intro n hn
    interval_cases n
    simp [digitsRev, digitsRevAux]
  | succ D ih =>
    intro n hn
    rcases Nat.eq_zero_or_pos n with h | h
    · subst h; simp [digitsRev, digitsRevAux]
    · rw [digitsRev_succ n h]
      simp only [List.length_cons]
      have := ih (n / 10) (by
        have h10 : (10 : ℕ) ^ (D + 1) = 10 ^ D * 10 := by ring
        omega)
      omega

theorem digitsRev_ne_nil (n : ℕ) (h : 0 < n) : digitsRev n ≠ [] := by
  rw [digitsRev_succ n h]
  simp

theorem digitsRev_append : ∀ (D f : ℕ), f < 10 ^ D → ∀ ip : ℕ, 0 < ip →
    digitsRev (ip * 10 ^ D + f) =
      (digitsRev f ++ List.replicate (D - (digitsRev f).length) 0) ++ digitsRev ip := by
  intro D
  induction D with
  | zero =>
    intro f hf ip hip
    interval_cases f
    simp [digitsRev, digitsRevAux]
  | succ D ih =>
    intro f hf ip hip
    have hpos : 0 < ip * 10 ^ (D + 1) + f := by positivity
    rw [digitsRev_succ _ hpos]
    have hmod : (ip * 10 ^ (D + 1) + f) % 10 = f % 10 := by
      have : ip * 10 ^ (D + 1) = ip * 10 ^ D * 10 := by ring
      omega
    have hdivr : (ip * 10 ^ (D + 1) + f) / 10 = ip * 10 ^ D + f / 10 := by
      have h1 : ip * 10 ^ (D + 1) + f = (ip * 10 ^ D) * 10 + f := by ring
      rw [h1]
      omega
    rw [hmod, hdivr, ih (f / 10) (by
      have h10 : (10 : ℕ) ^ (D + 1) = 10 ^ D * 10 := by ring
      omega) ip hip]
    rcases Nat.eq_zero_or_pos f with hf0 | hfpos
    · subst hf0
      simp [digitsRev, digitsRevAux, List.replicate_succ]
    · rw [digitsRev_succ f hfpos]
      have hlen : (digitsRev (f / 10)).length ≤ D :=
        digitsRev_len_le D (f / 10) (by
          have h10 : (10 : ℕ) ^ (D + 1) = 10 ^ D * 10 := by omega
          omega)
      simp only [List.length_cons, List.cons_append]
      rw [Nat.succ_sub_succ]

theorem foldl_digits_from (l : List ℕ) : ∀ init : ℕ,
    l.foldl (fun a d => 10 * a + d) init =
      init * 10 ^ l.length + l.foldl (fun a d => 10 * a + d) 0 := by
  induction l with
  | nil => intro init; simp
  | cons d t ih =>
    intro init
    simp only [List.foldl_cons, List.length_cons]
    rw [ih (10 * init + d), ih (10 * 0 + d)]
    ring

theorem valMSF_append (a b : List ℕ) :
    valMSF (a ++ b) = valMSF a * 10 ^ b.length + valMSF b := by
  unfold valMSF
  rw [List.foldl_append]
  exact foldl_digits_from b _

theorem valMSF_reverse (l : List ℕ) : valMSF l.reverse = valLE l := by
  induction l with
  | nil => rfl
  | cons d t ih =>
    simp only [List.reverse_cons, valLE]
    rw [valMSF_append, ← ih]
    simp only [List.length_cons, List.length_nil]
    have : valMSF [d] = d := by simp [valMSF]
    rw [this]
    ring

theorem digitVal?_digitChar (d : ℕ) (h : d < 10) : digitVal? (digitChar d) = some d := by
  interval_cases d <;> rfl

theorem digitChar_bounds (d : ℕ) (h : d < 10) :
    '0' ≤ digitChar d ∧ digitChar d ≤ '9' := by
  interval_cases d <;> exact ⟨by decide, by decide⟩

theorem digit_bounds_ne (c : Char) (h : '0' ≤ c ∧ c ≤ '9') :
    c ≠ '.' ∧ c ≠ ',' ∧ c ≠ '-' ∧ c ≠ '+' := by
  refine ⟨?_, ?_, ?_, ?_⟩ <;> rintro rfl <;> revert h <;> decide

theorem parseDigits?_map (l : List ℕ) (h : ∀ d ∈ l, d < 10) : ∀ init : ℕ,
    List.foldl (fun acc c => acc.bind (fun a => (digitVal? c).map (fun d => 10 * a + d)))
      (some init) (l.map digitChar) =
    some (l.foldl (fun a d => 10 * a + d) init) := by
  induction l with
  | nil => intro init; rfl
  | cons d t ih =>
    intro init
    simp only [List.map_cons, List.foldl_cons, Option.bind_some]
    rw [digitVal?_digitChar d (h d (List.mem_cons_self d t))]
    exact ih (fun d hd => h d (List.mem_cons_of_mem _ hd)) (10 * init + d)

theorem parseDigits?_map_digitChar (l : List ℕ) (h : ∀ d ∈ l, d < 10) :
    parseDigits? (l.map digitChar) = some (valMSF l) := by
  unfold parseDigits? valMSF
  exact parseDigits?_map l h 0

theorem natToChars_pos (n : ℕ) (h : 0 < n) :
    natToChars n = (digitsRev n).reverse.map digitChar := by
  unfold natToChars
  rw [if_neg (by omega)]

theorem parseDigits?_natToChars (n : ℕ) : parseDigits? (natToChars n) = some n := by
  rcases Nat.eq_zero_or_pos n with h | h
  · subst h; rfl
  · rw [natToChars_pos n h,
      parseDigits?_map_digitChar _ (fun d hd => digitsRev_mem_lt n d (List.mem_reverse.mp hd)),
      valMSF_reverse, valLE_digitsRev]

theorem natToChars_digits (n : ℕ) : ∀ c ∈ natToChars n, '0' ≤ c ∧ c ≤ '9' := by
  rcases Nat.eq_zero_or_pos n with h | h
  · subst h
    intro c hc
    rw [show natToChars 0 = ['0'] from rfl] at hc
    rw [List.mem_singleton] at hc
    subst hc
    exact ⟨le_rfl, by decide⟩
  · rw [natToChars_pos n h]
    intro c hc
    obtain ⟨d, hd, rfl⟩ := List.mem_map.mp hc
    exact digitChar_bounds d (digitsRev_mem_lt n d (List.mem_reverse.mp hd))

theorem natToChars_ne_nil (n : ℕ) : natToChars n ≠ [] := by
  rcases Nat.eq_zero_or_pos n with h | h
  · subst h; simp [natToChars]
  · rw [natToChars_pos n h]
    simp [digitsRev_ne_nil n h]

theorem splitOnChar_ne_nil (sep : Char) (l : List Char) : splitOnChar sep l ≠ [] := by
  cases l with
  | nil => simp [splitOnChar]
  | cons c t =>
    simp only [splitOnChar]
    rcases hs : splitOnChar sep t with _ | ⟨h, r⟩
    · simp
    · by_cases hc : c = sep <;> simp [hc]

theorem splitOnChar_not_mem (sep : Char) (l : List Char) (h : sep ∉ l) :
    splitOnChar sep l = [l] := by
  induction l with
  | nil => rfl
  | cons c t ih =>
    simp only [splitOnChar]
    rw [ih (fun hmem => h (List.mem_cons_of_mem _ hmem))]
    dsimp only
    rw [if_neg (fun hc => h (by rw [← hc] at *; exact List.mem_cons_self c t))]

theorem splitOnChar_append (sep : Char) (a b : List Char) (ha : sep ∉ a) :
    splitOnChar sep (a ++ sep :: b) = a :: splitOnChar sep b := by
  induction a with
  | nil =>
    simp only [List.nil_append, splitOnChar]
    rcases hs : splitOnChar sep b with _ | ⟨hh, r⟩
    · exact absurd hs (splitOnChar_ne_nil sep b)
    · simp
  | cons c t ih =>
    have hne : ¬ c = sep := fun hc => ha (by rw [hc]; exact List.mem_cons_self _ _)
    have ht : sep ∉ t := fun hmem => ha (List.mem_cons_of_mem _ hmem)
    simp only [List.cons_append, splitOnChar, List.append_eq]
    rw [ih ht]
    simp [hne]

theorem parseBigInt?_digits (l : List Char) (h : ∀ c ∈ l, '0' ≤ c ∧ c ≤ '9') :
    parseBigInt? l = (parseDigits? l).map (fun n : ℕ => (n : ℤ)) := by
  cases l with
  | nil => rfl
  | cons c rest =>
    have hc := digit_bounds_ne c (h c (List.mem_cons_self c rest))
    simp only [parseBigInt?]
    rw [if_neg hc.2.2.1, if_neg hc.2.2.2]

theorem parseUnsignedQ_digits (l : List Char) (h : ∀ c ∈ l, '0' ≤ c ∧ c ≤ '9') :
    parseUnsignedQ l = (parseDigits? l).map (fun n : ℕ => (n : ℚ)) := by
  unfold parseUnsignedQ
  rw [splitOnChar_not_mem _ _ (fun hmem => absurd (h '.' hmem).1 (by decide))]

theorem parseDecimalQ_digits (l : List Char) (h : ∀ c ∈ l, '0' ≤ c ∧ c ≤ '9') :
    parseDecimalQ l = (parseDigits? l).map (fun n : ℕ => (n : ℚ)) := by
  cases l with
  | nil => rfl
  | cons c rest =>
    have hc := digit_bounds_ne c (h c (List.mem_cons_self _ _))
    show (if c = '-' then (parseUnsignedQ rest).map (fun q => -q)
      else parseUnsignedQ (c :: rest)) = _
    rw [if_neg hc.2.2.1]
    exact parseUnsignedQ_digits _ h

theorem qtyToString_natCast_d0 (m : ℕ) (h : 0 < m) :
    qtyToString (m : ℤ) 0 = .ok (natToChars m) := by
  unfold qtyToString
  rw [if_neg (show ¬((m : ℤ) = 0) by exact_mod_cast h.ne')]
  rw [if_pos (by norm_num)]
  rw [pow_zero, Int.tdiv_one]
  unfold bigintToChars
  rw [if_neg (by simp), Int.toNat_ofNat]

theorem toNumberQ_natCast (m : ℕ) : toNumberQ ⟨(m : ℤ), 0⟩ = .ok (some (m : ℚ)) := by
  rcases Nat.eq_zero_or_pos m with h | h
  · subst h; rfl
  · unfold toNumberQ
    rw [show (Quantity.mk (m : ℤ) 0).qty = (m : ℤ) from rfl,
      show (Quantity.mk (m : ℤ) 0).D = 0 from rfl]
    rw [qtyToString_natCast_d0 m h]
    rw [Except.map, parseDecimalQ_digits _ (natToChars_digits m), parseDigits?_natToChars]
    rfl

theorem powIter_d0 (q : ℤ) : ∀ k : ℕ,
    (fun r => _mul r ⟨q, 0⟩)^[k] ⟨q, 0⟩ = ⟨q ^ (k + 1), 0⟩ := by
  intro k
  induction k with
  | zero => simp
  | succ k ih =>
    rw [Function.iterate_succ_apply', ih]
    show _mul ⟨q ^ (k + 1), 0⟩ ⟨q, 0⟩ = _
    simp only [_mul, __mul, sameDenom_fst, sameDenom_snd, __convert]
    simp [pow_succ, Int.tdiv_one]

/-- C3 amended: the direct bigint path and the iterative Quantity path of
`__pow` agree for every positive integer exponent when the base's denomination
is 0 (both then compute `raw ^ n` exactly, with no rescaling); for positive
denominations the two paths differ in general (see the counterexample).  The
bound `n ≤ 2^53` keeps the modelled exact numeric coercion of the exponent
within the range where the JS double coercion is exact. -/
theorem C3_pow_paths_agree_denom_zero (x : Quantity) (n : ℕ)
    (hD : x.D = 0) (hn : 1 ≤ n) (hexact : n ≤ 2 ^ 53) :
    __pow x (.int (n : ℤ)) = .ok ⟨x.qty ^ n, 0⟩ ∧
    __pow x (.qty ⟨(n : ℤ), 0⟩) = .ok ⟨x.qty ^ n, 0⟩ := by
  obtain ⟨q, xD⟩ := x
  dsimp only at hD
  subst hD
  have hnz : ¬((n : ℤ) = 0) := by exact_mod_cast (by omega : ¬ n = 0)
  constructor
  · simp only [__pow]
    rw [if_neg hnz, if_neg (by omega)]
    rw [Int.toNat_ofNat]
    unfold __convert
    rw [zero_pow (by omega : n ≠ 0)]
    simp
  · simp only [__pow]
    have hsame : sameDenom ⟨q, 0⟩ ⟨(n : ℤ), 0⟩ = (⟨q, 0⟩, ⟨(n : ℤ), 0⟩) := rfl
    rw [if_neg (show ¬(eqQ ⟨(n : ℤ), 0⟩ ⟨0, 0⟩ = true) from
      (not_iff_not.mpr (eqQ_zero_right ⟨(n : ℤ), 0⟩)).mpr hnz)]
    rw [hsame]
    rw [toNumberQ_natCast n]
    have hv : ¬((n : ℚ) < 0) := not_lt.mpr (by positivity)
    simp only [if_neg hv]
    unfold powIterRes
    rw [hsame]
    have hcount : powLoopCount ((n : ℕ) : ℚ) = n - 1 := by
      unfold powLoopCount
      rw [Rat.num_natCast, Rat.den_natCast]
      simp only [Nat.cast_one, Int.natAbs_ofNat, Int.fdiv_one]
      omega
    rw [hcount, powIter_d0 q (n - 1)]
    rw [Nat.sub_add_cancel hn]

/-- Witness for C3 amended at base raw 7, denomination 0, exponent 2. -/
theorem C3_pow_paths_agree_denom_zero_witness :
    __pow ⟨7, 0⟩ (.int ((2 : ℕ) : ℤ)) = .ok ⟨(7 : ℤ) ^ 2, 0⟩ ∧
    __pow ⟨7, 0⟩ (.qty ⟨((2 : ℕ) : ℤ), 0⟩) = .ok ⟨(7 : ℤ) ^ 2, 0⟩ :=
  C3_pow_paths_agree_denom_zero ⟨7, 0⟩ 2 rfl (by norm_num) (by norm_num)

/-- Witness for C2 at concrete inputs: dividing by a raw-zero divisor fails
with DivisionByZero, and `__pow` of the zero quantity with Quantity exponent
-2 fails with DivisionByZero in its reciprocal path. -/
theorem C2_division_by_zero_witness :
    (__div ⟨1, 0⟩ ⟨0, 0⟩ = .error .DivisionByZero ↔ (Quantity.mk 0 0).qty = 0) ∧
    ((Quantity.mk 0 0).qty ≠ 0 → ∃ r, __div ⟨1, 0⟩ ⟨0, 0⟩ = .ok r) ∧
    __pow ⟨0, 0⟩ (.qty ⟨-2, 0⟩) = .error .DivisionByZero :=
  C2_division_by_zero ⟨1, 0⟩ ⟨0, 0⟩ ⟨0, 0⟩ ⟨-2, 0⟩ (-2) (by decide) rfl (by norm_num) rfl

/-- Witness for C8 at receiver raw 1, denomination 1 (0.1) and operand raw 25,
denomination 3 (0.025). -/
theorem C8_inplace_narrowing_witness :
    (__add ⟨1, 1⟩ ⟨25, 3⟩).D = (Quantity.mk 25 3).D ∧
    valQ (__add ⟨1, 1⟩ ⟨25, 3⟩) = valQ ⟨1, 1⟩ + valQ ⟨25, 3⟩ ∧
    (_add ⟨1, 1⟩ ⟨25, 3⟩).D = (Quantity.mk 1 1).D ∧
    (_add ⟨1, 1⟩ ⟨25, 3⟩).qty =
      Int.tdiv (__add ⟨1, 1⟩ ⟨25, 3⟩).qty (10 ^ ((Quantity.mk 25 3).D - (Quantity.mk 1 1).D)) :=
  C8_inplace_narrowing ⟨1, 1⟩ ⟨25, 3⟩ (by decide)

/-- Witness for C9 on the two-element list (0.5 at denomination 1, 2 at
denomination 0): min is the first original instance, max the second. -/
theorem C9_min_max_membership_witness :
    Quantity.mk 5 1 ∈ [Quantity.mk 5 1, ⟨2, 0⟩] ∧
    Quantity.mk 2 0 ∈ [Quantity.mk 5 1, ⟨2, 0⟩] :=
  C9_min_max_membership [⟨5, 1⟩, ⟨2, 0⟩] ⟨5, 1⟩ ⟨2, 0⟩ rfl rfl

/-! ## Rendering and parsing lemmas for the round trip -/

theorem bigintToChars_natCast (n : ℕ) : bigintToChars (n : ℤ) = natToChars n := by
  unfold bigintToChars
  rw [if_neg (by simp), Int.toNat_ofNat]

theorem valMSF_cons (d : ℕ) (t : List ℕ) :
    valMSF (d :: t) = d * 10 ^ t.length + valMSF t := by
  unfold valMSF
  simp only [List.foldl_cons]
  rw [foldl_digits_from t (10 * 0 + d)]
  norm_num

theorem valMSF_lt (l : List ℕ) (h : ∀ d ∈ l, d < 10) : valMSF l < 10 ^ l.length := by
  induction l with
  | nil => simp [valMSF]
  | cons d t ih =>
    have hd := h d (List.mem_cons_self _ _)
    have ht := ih (fun x hx => h x (List.mem_cons_of_mem _ hx))
    rw [valMSF_cons]
    simp only [List.length_cons]
    calc d * 10 ^ t.length + valMSF t < d * 10 ^ t.length + 10 ^ t.length := by omega
      _ = (d + 1) * 10 ^ t.length := by ring
      _ ≤ 10 * 10 ^ t.length := Nat.mul_le_mul_right _ (by omega)
      _ = 10 ^ (t.length + 1) := by ring

theorem valLE_replicate_zero (k : ℕ) : valLE (List.replicate k 0) = 0 := by
  induction k with
  | zero => rfl
  | succ k ih => simp [List.replicate_succ, valLE, ih]

theorem valLE_append_zeros (l : List ℕ) (k : ℕ) :
    valLE (l ++ List.replicate k 0) = valLE l := by
  induction l with
  | nil => simp [valLE, valLE_replicate_zero]
  | cons d t ih => simp [valLE, ih]

theorem fracPad_length (D f : ℕ) (hf : f < 10 ^ D) : (fracPad D f).length = D := by
  unfold fracPad
  have := digitsRev_len_le D f hf
  simp only [List.length_append, List.length_replicate]
  omega

theorem fracPad_mem_lt (D f : ℕ) : ∀ d ∈ fracPad D f, d < 10 := by
  intro d hd
  rcases List.mem_append.mp hd with h | h
  · exact digitsRev_mem_lt f d h
  · rw [List.eq_of_mem_replicate h]
    omega

theorem valLE_fracPad (D f : ℕ) : valLE (fracPad D f) = f := by
  unfold fracPad
  rw [valLE_append_zeros, valLE_digitsRev]

theorem natToChars_split (n D : ℕ) (hip : 0 < n / 10 ^ D) :
    natToChars n =
      natToChars (n / 10 ^ D) ++ (fracPad D (n % 10 ^ D)).reverse.map digitChar := by
  have hn : 0 < n := by
    rcases Nat.eq_zero_or_pos n with h | h
    · subst h; simp at hip
    · exact h
  have hdm := Nat.div_add_mod n (10 ^ D)
  have heq : n = (n / 10 ^ D) * 10 ^ D + n % 10 ^ D := by linarith
  rw [natToChars_pos n hn, natToChars_pos _ hip]
  conv_lhs => rw [heq]
  rw [digitsRev_append D (n % 10 ^ D) (Nat.mod_lt _ (by positivity)) _ hip]
  rw [show digitsRev (n % 10 ^ D) ++
      List.replicate (D - (digitsRev (n % 10 ^ D)).length) 0 = fracPad D (n % 10 ^ D) from rfl]
  rw [List.reverse_append, List.map_append]

theorem padStart_fracPad (n D : ℕ) (hn : 0 < n) (hf : n < 10 ^ D) :
    padStartZeros D (natToChars n) = (fracPad D n).reverse.map digitChar := by
  rw [natToChars_pos n hn]
  unfold padStartZeros fracPad
  rw [List.reverse_append, List.map_append, List.reverse_replicate, List.map_replicate]
  simp only [List.length_map, List.length_reverse]
  rfl

theorem stripTrailingZeros_spec (l : List Char) :
    ∃ k, l = stripTrailingZeros l ++ List.replicate k '0' := by
  have hp : ∀ b ∈ l.reverse.takeWhile (fun c => c = '0'), b = '0' := by
    intro b hb
    have h := List.mem_takeWhile_imp hb
    exact of_decide_eq_true h
  refine ⟨(l.reverse.takeWhile (fun c => c = '0')).length, ?_⟩
  have h1 : l = (l.reverse.dropWhile (fun c => c = '0')).reverse ++
      (l.reverse.takeWhile (fun c => c = '0')).reverse := by
    conv_lhs => rw [← List.reverse_reverse l]
    rw [← List.reverse_append, List.takeWhile_append_dropWhile]
  have h2 : (l.reverse.takeWhile (fun c => c = '0')).reverse =
      List.replicate (l.reverse.takeWhile (fun c => c = '0')).length '0' := by
    rw [List.eq_replicate_of_mem hp]
    simp
  conv_lhs => rw [h1]
  rw [h2]
  rfl

theorem mem_stripTrailingZeros (l : List Char) (c : Char) (h : c ∈ stripTrailingZeros l) :
    c ∈ l := by
  obtain ⟨k, hk⟩ := stripTrailingZeros_spec l
  rw [hk]
  exact List.mem_append.mpr (Or.inl h)

theorem foldl_step_zeros : ∀ (k : ℕ) (o : Option ℕ),
    List.foldl (fun acc c => acc.bind (fun a => (digitVal? c).map (fun d => 10 * a + d)))
      o (List.replicate k '0') = o.map (fun a => a * 10 ^ k) := by
  intro k
  induction k with
  | zero =>
    intro o
    cases o <;> simp
  | succ k ih =>
    intro o
    rw [List.replicate_succ, List.foldl_cons, ih]
    cases o with
    | none => simp
    | some a =>
      show some ((10 * a + 0) * 10 ^ k) = some (a * 10 ^ (k + 1))
      congr 1
      ring

theorem parseDigits?_append_zeros (s : List Char) (k : ℕ) :
    parseDigits? (s ++ List.replicate k '0') =
      (parseDigits? s).map (fun a => a * 10 ^ k) := by
  unfold parseDigits?
  rw [List.foldl_append]
  exact foldl_step_zeros k _

theorem filter_ne_comma (l : List Char) (h : ∀ c ∈ l, c ≠ ',') :
    l.filter (fun c => c != ',') = l :=
  List.filter_eq_self.mpr (fun a ha => by simpa using h a ha)

theorem fromString_digits_only (A : List Char) (D : ℕ) (a : ℕ)
    (hA : ∀ c ∈ A, '0' ≤ c ∧ c ≤ '9') (hAne : A ≠ []) (hpa : parseDigits? A = some a) :
    fromString A D = .ok ((a : ℤ) * 10 ^ D) := by
  unfold fromString
  rw [if_neg hAne]
  rw [filter_ne_comma A (fun c hc => (digit_bounds_ne c (hA c hc)).2.1)]
  rw [if_neg hAne]
  rw [splitOnChar_not_mem '.' A (fun hmem => absurd (hA '.' hmem).1 (by decide))]
  dsimp only
  rw [parseBigInt?_digits A hA, hpa]
  rfl

theorem fromString_digit_dot (A B : List Char) (D : ℕ) (a b : ℕ)
    (hA : ∀ c ∈ A, '0' ≤ c ∧ c ≤ '9') (hB : ∀ c ∈ B, '0' ≤ c ∧ c ≤ '9')
    (hBne : B ≠ [])
    (hpa : parseDigits? A = some a) (hpb : parseDigits? (B.take D) = some b) :
    fromString (A ++ '.' :: B) D =
      .ok ((a : ℤ) * 10 ^ D + (b : ℤ) * 10 ^ (D - (B.take D).length)) := by
  unfold fromString
  have hne : A ++ '.' :: B ≠ [] := by simp
  rw [if_neg hne]
  have hfil : (A ++ '.' :: B).filter (fun c => c != ',') = A ++ '.' :: B := by
    apply filter_ne_comma
    intro c hc
    rcases List.mem_append.mp hc with h | h
    · exact (digit_bounds_ne c (hA c h)).2.1
    · rcases List.mem_cons.mp h with h | h
      · subst h; decide
      · exact (digit_bounds_ne c (hB c h)).2.1
  rw [hfil, if_neg hne]
  rw [splitOnChar_append '.' A B (fun hmem => absurd (hA '.' hmem).1 (by decide))]
  rw [splitOnChar_not_mem '.' B (fun hmem => absurd (hB '.' hmem).1 (by decide))]
  dsimp only
  rw [parseBigInt?_digits A hA, hpa]
  simp only [Option.map_some', Option.bind_some, Option.pure_def]
  rw [if_neg hBne]
  rw [parseBigInt?_digits _ (fun c hc => hB c (List.take_subset _ _ hc)), hpb]
  simp only [Option.map_some', Option.bind_some, Option.pure_def]
  by_cases hlen : (B.take D).length < D
  · rw [if_pos hlen]
  · rw [if_neg hlen]
    have hDl : (B.take D).length = D := by
      have := List.length_take D B
      omega
    rw [hDl, Nat.sub_self, pow_zero, mul_one]

theorem fracChars_digits (D f : ℕ) :
    ∀ c ∈ (fracPad D f).reverse.map digitChar, '0' ≤ c ∧ c ≤ '9' := by
  intro c hc
  obtain ⟨d, hd, rfl⟩ := List.mem_map.mp hc
  exact digitChar_bounds d (fracPad_mem_lt D f d (List.mem_reverse.mp hd))

theorem parse_fracChars (D f : ℕ) :
    parseDigits? ((fracPad D f).reverse.map digitChar) = some f := by
  rw [parseDigits?_map_digitChar _ (fun d hd => fracPad_mem_lt D f d (List.mem_reverse.mp hd))]
  rw [valMSF_reverse, valLE_fracPad]

theorem fracChars_length (D f : ℕ) (hf : f < 10 ^ D) :
    ((fracPad D f).reverse.map digitChar).length = D := by
  rw [List.length_map, List.length_reverse, fracPad_length D f hf]

/-- Characterization of `toString` on a positive value: the truncated integer
part, then (when the fractional remainder is nonzero) a dot and the `D`-digit
zero-padded fractional remainder with trailing zeros stripped. -/
theorem qtyToString_pos (n D : ℕ) (hn : 0 < n) (hD1 : 1 ≤ D) (hD : D ≤ 20) :
    qtyToString (n : ℤ) D =
      .ok (if n % 10 ^ D = 0 then natToChars (n / 10 ^ D)
           else natToChars (n / 10 ^ D) ++
             '.' :: stripTrailingZeros ((fracPad D (n % 10 ^ D)).reverse.map digitChar)) := by
  have hcast : (10 : ℤ) ^ D = ((10 ^ D : ℕ) : ℤ) := by push_cast; ring
  have htdiv : Int.tdiv (n : ℤ) ((10 : ℤ) ^ D) = ((n / 10 ^ D : ℕ) : ℤ) := by
    rw [hcast]; rfl
  have hflt : n % 10 ^ D < 10 ^ D := Nat.mod_lt _ (by positivity)
  unfold qtyToString
  rw [if_neg (show ¬((n : ℤ) = 0) by exact_mod_cast hn.ne')]
  rw [min_eq_left hD]
  rw [if_neg (by omega : ¬ D = 0)]
  rw [htdiv, bigintToChars_natCast (n / 10 ^ D), bigintToChars_natCast n]
  rcases Nat.eq_zero_or_pos (n / 10 ^ D) with hip0 | hippos
  · -- integer part zero: n < 10^D and the fraction is n itself
    have hnlt : n < 10 ^ D := (Nat.div_eq_zero_iff (by positivity)).mp hip0
    have hfn : n % 10 ^ D = n := Nat.mod_eq_of_lt hnlt
    rw [hip0]
    rw [if_pos (show ((0 : ℕ) : ℤ) = 0 from rfl)]
    dsimp only
    rw [List.drop_zero]
    rw [padStart_fracPad n D hn hnlt]
    have hlen : ((fracPad D n).reverse.map digitChar).length = D := fracChars_length D n hnlt
    rw [List.take_of_length_le hlen.le]
    rw [if_neg (List.ne_nil_of_length_pos (by omega))]
    rw [parseBigInt?_digits _ (fracChars_digits D n), parse_fracChars D n]
    simp only [Option.map_some']
    rw [if_pos (show (0 : ℤ) < (n : ℤ) by exact_mod_cast hn)]
    rw [if_neg (by omega : ¬ n % 10 ^ D = 0)]
    rw [hfn]
  · -- positive integer part
    rw [if_neg (show ¬((((n / 10 ^ D) : ℕ) : ℤ) = 0) by exact_mod_cast hippos.ne')]
    rw [natToChars_split n D hippos]
    dsimp only
    rw [List.drop_left]
    have hlen : ((fracPad D (n % 10 ^ D)).reverse.map digitChar).length = D :=
      fracChars_length D _ hflt
    rw [show padStartZeros D ((fracPad D (n % 10 ^ D)).reverse.map digitChar) =
        (fracPad D (n % 10 ^ D)).reverse.map digitChar from by
      unfold padStartZeros
      rw [hlen, Nat.sub_self]
      rfl]
    rw [List.take_of_length_le hlen.le]
    rw [if_neg (List.ne_nil_of_length_pos (by omega))]
    rw [parseBigInt?_digits _ (fracChars_digits D _), parse_fracChars D _]
    simp only [Option.map_some']
    rcases Nat.eq_zero_or_pos (n % 10 ^ D) with hf0 | hfpos
    · rw [hf0]
      rw [if_neg (show ¬(((0 : ℕ) : ℤ) > 0) by norm_num)]
      rw [if_pos rfl]
    · rw [if_pos (show (0 : ℤ) < ((n % 10 ^ D : ℕ) : ℤ) by exact_mod_cast hfpos)]
      rw [if_neg (by omega : ¬ n % 10 ^ D = 0)]

/-- Scaling identity behind parse truncation: truncating a fractional digit
string to `D` digits and right-padding to `D` equals the truncating division
`v * 10^D / 10^len`. -/
theorem valMSF_take_scale (fr : List ℕ) (hfr : ∀ d ∈ fr, d < 10) (D : ℕ) :
    valMSF (fr.take D) * 10 ^ (D - (fr.take D).length) =
      valMSF fr * 10 ^ D / 10 ^ fr.length := by
  rcases le_or_lt fr.length D with hle | hlt
  · rw [List.take_of_length_le hle]
    have h10 : (10 : ℕ) ^ D = 10 ^ (D - fr.length) * 10 ^ fr.length := by
      rw [← pow_add]
      congr 1
      omega
    rw [h10, ← Nat.mul_assoc, Nat.mul_div_cancel _ (by positivity)]
  · have hlen : (fr.take D).length = D := by
      rw [List.length_take]
      omega
    rw [hlen, Nat.sub_self, pow_zero, Nat.mul_one]
    have hsplit : fr = fr.take D ++ fr.drop D := (List.take_append_drop D fr).symm
    have hval : valMSF fr = valMSF (fr.take D) * 10 ^ (fr.drop D).length +
        valMSF (fr.drop D) := by
      conv_lhs => rw [hsplit]
      exact valMSF_append _ _
    have hbound : valMSF (fr.drop D) < 10 ^ (fr.drop D).length :=
      valMSF_lt _ (fun d hd => hfr d (List.drop_subset _ _ hd))
    have h10 : (10 : ℕ) ^ fr.length = 10 ^ (fr.drop D).length * 10 ^ D := by
      rw [← pow_add]
      congr 1
      rw [List.length_drop]
      omega
    rw [hval, h10]
    rw [Nat.mul_div_mul_right _ _ (show 0 < (10 : ℕ) ^ D by positivity)]
    rw [show valMSF (fr.take D) * 10 ^ (fr.drop D).length + valMSF (fr.drop D) =
        valMSF (fr.drop D) + 10 ^ (fr.drop D).length * valMSF (fr.take D) from by ring]
    rw [Nat.add_mul_div_left _ _ (show 0 < (10 : ℕ) ^ (fr.drop D).length by positivity)]
    rw [Nat.div_eq_of_lt hbound]
    omega

theorem fromString_digits_dot_empty (A : List Char) (D : ℕ) (a : ℕ)
    (hA : ∀ c ∈ A, '0' ≤ c ∧ c ≤ '9') (hAne : A ≠ []) (hpa : parseDigits? A = some a) :
    fromString (A ++ ['.']) D = .ok ((a : ℤ) * 10 ^ D) := by
  unfold fromString
  have hne : A ++ ['.'] ≠ [] := by simp
  rw [if_neg hne]
  rw [show (A ++ ['.']).filter (fun c => c != ',') = A ++ ['.'] from
    filter_ne_comma _ (by
      intro c hc
      rcases List.mem_append.mp hc with h | h
      · exact (digit_bounds_ne c (hA c h)).2.1
      · rw [List.mem_singleton] at h
        subst h
        decide)]
  rw [if_neg hne]
  rw [show A ++ ['.'] = A ++ '.' :: ([] : List Char) from rfl]
  rw [splitOnChar_append '.' A [] (fun hmem => absurd (hA '.' hmem).1 (by decide))]
  dsimp only
  rw [parseBigInt?_digits A hA, hpa]
  simp only [Option.map_some']
  rw [show splitOnChar '.' ([] : List Char) = [([] : List Char)] from rfl]
  dsimp only
  rw [if_pos rfl]

/-- C4 counterexample: the round trip fails on negative values — raw -15 at
denomination 1 renders as "-1.5" but `fromString` *adds* the fractional part
instead of subtracting it, parsing back raw -5; and it fails for denominations
above 20 — raw 1 at denomination 21 renders as "0" (`toLocaleString` caps the
fractional digits at 20) and parses back as raw 0. -/
theorem C4_roundtrip_counterexample :
    qtyToString (-15) 1 = .ok ("-1.5".toList) ∧
    fromString ("-1.5".toList) 1 = .ok (-5) ∧
    ((-5 : ℤ) ≠ -15) ∧
    qtyToString 1 21 = .ok ("0".toList) ∧
    fromString ("0".toList) 21 = .ok 0 ∧
    ((0 : ℤ) ≠ 1) :=
  ⟨rfl, rfl, by decide, rfl, rfl, by decide⟩

/-- C4 amended: the round trip `fromString (toString v) = v` holds for every
quantity with non-negative raw value and denomination at most 20 (`toString`
then renders at most `D` fractional digits, only stripping trailing zeros
that parsing re-pads). -/
theorem C4_parse_render_roundtrip (q : ℤ) (D : ℕ) (hq : 0 ≤ q) (hD : D ≤ 20) :
    (qtyToString q D).bind (fun s => fromString s D) = .ok q := by
  obtain ⟨n, rfl⟩ := Int.eq_ofNat_of_zero_le hq
  rcases Nat.eq_zero_or_pos n with hn0 | hn
  · subst hn0
    show fromString ['0'] D = .ok ((0 : ℕ) : ℤ)
    have h := fromString_digits_only ['0'] D 0 (by decide) (by decide) (by decide)
    simpa using h
  · rcases Nat.eq_zero_or_pos D with hD0 | hD1
    · subst hD0
      rw [show ((n : ℕ) : ℤ) = ((n : ℕ) : ℤ) from rfl, qtyToString_natCast_d0 n hn]
      show fromString (natToChars n) 0 = .ok ((n : ℕ) : ℤ)
      have h := fromString_digits_only (natToChars n) 0 n (natToChars_digits n)
        (natToChars_ne_nil n) (parseDigits?_natToChars n)
      simpa using h
    · rw [qtyToString_pos n D hn hD1 hD]
      have hdm := Nat.div_add_mod n (10 ^ D)
      rcases Nat.eq_zero_or_pos (n % 10 ^ D) with hf0 | hfpos
      · rw [if_pos hf0]
        show fromString (natToChars (n / 10 ^ D)) D = .ok ((n : ℕ) : ℤ)
        rw [fromString_digits_only (natToChars (n / 10 ^ D)) D (n / 10 ^ D)
          (natToChars_digits _) (natToChars_ne_nil _) (parseDigits?_natToChars _)]
        congr 1
        have hmn : n / 10 ^ D * 10 ^ D = n :=
          Nat.div_mul_cancel (Nat.dvd_of_mod_eq_zero hf0)
        exact_mod_cast congrArg (fun m : ℕ => (m : ℤ)) hmn
      · rw [if_neg (by omega)]
        set F := (fracPad D (n % 10 ^ D)).reverse.map digitChar with hF
        show fromString (natToChars (n / 10 ^ D) ++ '.' :: stripTrailingZeros F) D =
          .ok ((n : ℕ) : ℤ)
        obtain ⟨k, hk⟩ := stripTrailingZeros_spec F
        have hFlen : F.length = D := fracChars_length D _ (Nat.mod_lt _ (by positivity))
        have hklen : (stripTrailingZeros F).length + k = D := by
          have hlcong := congrArg List.length hk
          simp only [List.length_append, List.length_replicate] at hlcong
          omega
        have hparseF : parseDigits? F = some (n % 10 ^ D) := parse_fracChars D _
        rw [hk, parseDigits?_append_zeros] at hparseF
        obtain ⟨v, hv, hvf⟩ := Option.map_eq_some'.mp hparseF
        have hSne : stripTrailingZeros F ≠ [] := by
          intro hSnil
          rw [hSnil] at hv
          have hv0 : 0 = v := Option.some.inj hv
          have hzero : n % 10 ^ D = 0 := by
            rw [← hvf, ← hv0, Nat.zero_mul]
          omega
        have hSd : ∀ c ∈ stripTrailingZeros F, '0' ≤ c ∧ c ≤ '9' := by
          intro c hc
          apply fracChars_digits D (n % 10 ^ D)
          exact mem_stripTrailingZeros F c hc
        have htake : (stripTrailingZeros F).take D = stripTrailingZeros F :=
          List.take_of_length_le (by omega)
        rw [fromString_digit_dot (natToChars (n / 10 ^ D)) (stripTrailingZeros F) D
          (n / 10 ^ D) v (natToChars_digits _) hSd hSne (parseDigits?_natToChars _)
          (by rw [htake]; exact hv)]
        rw [htake]
        congr 1
        have hexp : D - (stripTrailingZeros F).length = k := by omega
        rw [hexp]
        have hmn : n / 10 ^ D * 10 ^ D + v * 10 ^ k = n := by
          rw [hvf]
          rw [Nat.mul_comm (n / 10 ^ D) (10 ^ D)]
          omega
        exact_mod_cast congrArg (fun m : ℕ => (m : ℤ)) hmn

/-- Witness for C4 amended at raw 12345, denomination 2 (value 123.45). -/
theorem C4_parse_render_roundtrip_witness :
    (qtyToString 12345 2).bind (fun s => fromString s 2) = .ok 12345 :=
  C4_parse_render_roundtrip 12345 2 (by norm_num) (by norm_num)

/-- C5 counterexample: parsing "12456.000055" at denomination 5 keeps only the
first five fractional digits "00005", so the parsed raw value is 1245600005
and the `fractional` accessor yields 5 — not 55 as the claim states (the
sixth digit, a 5, is among those discarded). -/
theorem C5_fractional_counterexample :
    fromString ("12456.000055".toList) 5 = .ok 1245600005 ∧
    Quantity.fractional ⟨1245600005, 5⟩ = 5 ∧
    ((5 : ℤ) ≠ 55) :=
  ⟨rfl, rfl, by decide⟩

/-- C5 amended: `fromString` truncates and never rounds — for any integer part
`i` and fractional digit string `fr`, the parsed raw value is
`i * 10^D + (value(fr) * 10^D) / 10^len(fr)` with truncating division (the
first `D` fractional digits are kept, excess digits are silently discarded, a
shorter fractional part is right-padded with zeros, e.g. "0.55" at
denomination 5 scales to raw 55000); concretely "12456.000055" at
denomination 5 parses to integer part 12456 and fractional part 5 (not 55 —
digits beyond the fifth fractional place are dropped, never rounded). -/
theorem C5_parse_truncation (i : ℕ) (fr : List ℕ) (D : ℕ) (hfr : ∀ d ∈ fr, d < 10) :
    fromString (natToChars i ++ '.' :: fr.map digitChar) D =
      .ok ((i : ℤ) * 10 ^ D + ((valMSF fr * 10 ^ D / 10 ^ fr.length : ℕ) : ℤ)) ∧
    fromString ("12456.000055".toList) 5 = .ok 1245600005 ∧
    Quantity.integer ⟨1245600005, 5⟩ = 12456 ∧
    Quantity.fractional ⟨1245600005, 5⟩ = 5 ∧
    fromString ("0.55".toList) 5 = .ok 55000 := by
  refine ⟨?_, rfl, rfl, rfl, rfl⟩
  rcases fr with _ | ⟨d, t⟩
  · rw [show ([] : List ℕ).map digitChar = [] from rfl]
    rw [fromString_digits_dot_empty (natToChars i) D i (natToChars_digits i)
      (natToChars_ne_nil i) (parseDigits?_natToChars i)]
    norm_num [valMSF]
  · have hBd : ∀ c ∈ (d :: t).map digitChar, '0' ≤ c ∧ c ≤ '9' := by
      intro c hc
      obtain ⟨x, hx, rfl⟩ := List.mem_map.mp hc
      exact digitChar_bounds x (hfr x hx)
    have htakemap : ((d :: t).map digitChar).take D = ((d :: t).take D).map digitChar :=
      (List.map_take digitChar (d :: t) D).symm
    rw [fromString_digit_dot (natToChars i) ((d :: t).map digitChar) D i
      (valMSF ((d :: t).take D)) (natToChars_digits i) hBd (by simp)
      (parseDigits?_natToChars i) (by
        rw [htakemap]
        exact parseDigits?_map_digitChar _ (fun x hx => hfr x (List.take_subset _ _ hx)))]
    congr 1
    rw [htakemap]
    simp only [List.length_map]
    rw [show ((i : ℤ) * 10 ^ D + ((valMSF ((d :: t)) * 10 ^ D / 10 ^ (d :: t).length : ℕ) : ℤ)) =
      (i : ℤ) * 10 ^ D + ((valMSF ((d :: t).take D) * 10 ^ (D - ((d :: t).take D).length) : ℕ) : ℤ)
      from by rw [valMSF_take_scale (d :: t) hfr D]]
    push_cast
    ring

/-- Witness for C5 amended: parsing "1.23" at denomination 1 yields raw 12
(the digit 3 is truncated away). -/
theorem C5_parse_truncation_witness :
    fromString (natToChars 1 ++ '.' :: [2, 3].map digitChar) 1 =
      .ok ((1 : ℤ) * 10 ^ 1 + ((valMSF [2, 3] * 10 ^ 1 / 10 ^ ([2, 3] : List ℕ).length : ℕ) : ℤ)) ∧
    fromString ("12456.000055".toList) 5 = .ok 1245600005 ∧
    Quantity.integer ⟨1245600005, 5⟩ = 12456 ∧
    Quantity.fractional ⟨1245600005, 5⟩ = 5 ∧
    fromString ("0.55".toList) 5 = .ok 55000 :=
  C5_parse_truncation 1 [2, 3] 1 (by decide)

end AoTokens

